import Mathlib

/-!
Shallow embedding of the gcctest TCP server's buffer, pool and connection
layer (MessageBuffer.h / BufferConfig.{h,cpp} and the pooled
ConnectionHandler implementation), together with proofs of the framing,
buffering and error-handling properties stated for it.

Bytes are modelled as `Nat`; byte strings as `List Nat`.  Machine `size_t`
arithmetic never overflows on the code paths modelled here (all lengths stay
far below 2^64 in every reachable trace considered), so lengths are plain
`Nat`.  Socket system calls are modelled by explicit scripts of outcomes.
-/

/-- Model of `MESSAGE_DELIMITER = '\n'` (byte 0x0A) from ConnectionHandler.h. -/
def DELIM : Nat := 10

/-- Model of `MAX_MESSAGE_SIZE = 4096` from ConnectionHandler.h. -/
def MAX_MESSAGE_SIZE : Nat := 4096

/-- Model of `BufferConfig::MEDIUM_MESSAGE_SIZE`, which is
`MessageBufferPool::DEFAULT_BUFFER_SIZE`. -/
def DEFAULT_BUFFER_SIZE : Nat := 1024

/-- Model of `MessageBufferPool::MAX_POOL_SIZE = BufferConfig::MEDIUM_POOL_SIZE`. -/
def MAX_POOL_SIZE : Nat := 50

/-- Model of `MemoryTracker::MAX_MEMORY_BYTES = MAX_TOTAL_MEMORY_MB * 1024 * 1024`. -/
def MAX_MEMORY_BYTES : Nat := 100 * 1024 * 1024

/-- One round of `read_buffer_.find(MESSAGE_DELIMITER)` followed by
`substr(0, pos)` and `erase(0, pos + 1)`: splits the buffer at the first
delimiter into the prefix before it and the suffix after it; `none` when no
delimiter occurs. -/
def splitAtDelim : List Nat → Option (List Nat × List Nat)
  | [] => none
  | b :: bs =>
    if b = DELIM then some ([], bs)
    else (splitAtDelim bs).map (fun p => (b :: p.1, p.2))

theorem splitAtDelim_eq_none {l : List Nat} :
    splitAtDelim l = none ↔ DELIM ∉ l := by
  induction l with
  | nil => simp [splitAtDelim]
  | cons b bs ih =>
    by_cases hb : b = DELIM
    · subst hb; simp [splitAtDelim]
    · have hd : (DELIM : Nat) ≠ b := fun hh => hb hh.symm
      simp [splitAtDelim, hb, Option.map_eq_none', ih, List.mem_cons, hd]

theorem splitAtDelim_some {l m r : List Nat} (h : splitAtDelim l = some (m, r)) :
    l = m ++ DELIM :: r := by
  induction l generalizing m r with
  | nil => simp [splitAtDelim] at h
  | cons b bs ih =>
    by_cases hb : b = DELIM
    · subst hb
      simp only [splitAtDelim, if_pos rfl, Option.some.injEq, Prod.mk.injEq] at h
      obtain ⟨rfl, rfl⟩ := h
      simp
    · simp only [splitAtDelim, if_neg hb, Option.map_eq_some'] at h
      obtain ⟨⟨m', r'⟩, hp, heq⟩ := h
      simp only [Prod.mk.injEq] at heq
      obtain ⟨hm, hr⟩ := heq
      subst hr
      subst hm
      rw [ih hp]
      simp

theorem splitAtDelim_length {l m r : List Nat} (h : splitAtDelim l = some (m, r)) :
    r.length < l.length := by
  have hl := splitAtDelim_some h
  subst hl
  simp
  omega

/-- Model of `ConnectionHandler::extractMessages`: repeatedly find the first
delimiter, remove the prefix together with the delimiter, skip empty
prefixes, and deliver the non-empty ones in order.  Returns the delivered
messages and the remaining accumulator. -/
def extractMessages (buf : List Nat) : List (List Nat) × List Nat :=
  match h : splitAtDelim buf with
  | none => ([], buf)
  | some (m, r) =>
    let p := extractMessages r
    (if m = [] then p.1 else m :: p.1, p.2)
termination_by buf.length
decreasing_by exact splitAtDelim_length h

/-- Unfolding equation for `extractMessages` when no delimiter occurs. -/
theorem extractMessages_none {buf : List Nat} (h : splitAtDelim buf = none) :
    extractMessages buf = ([], buf) := by
  rw [extractMessages]
  split
  · rfl
  · next m r hs => rw [h] at hs; cases hs

/-- Unfolding equation for `extractMessages` at the first delimiter. -/
theorem extractMessages_some {buf m r : List Nat}
    (h : splitAtDelim buf = some (m, r)) :
    extractMessages buf =
      (if m = [] then (extractMessages r).1 else m :: (extractMessages r).1,
       (extractMessages r).2) := by
  rw [extractMessages]
  split
  · next hs => rw [h] at hs; cases hs
  · next m' r' hs =>
    rw [h] at hs
    simp only [Option.some.injEq, Prod.mk.injEq] at hs
    obtain ⟨rfl, rfl⟩ := hs
    rfl

/-- The residue of extraction never contains a delimiter. -/
theorem extractMessages_residue (buf : List Nat) :
    DELIM ∉ (extractMessages buf).2 := by
  induction buf using extractMessages.induct with
  | case1 buf hnone =>
    rw [extractMessages_none hnone]
    exact splitAtDelim_eq_none.mp hnone
  | case2 buf m r hsome ih =>
    rw [extractMessages_some hsome]
    simpa using ih

/-- A buffer without delimiter extracts nothing. -/
theorem extractMessages_no_delim {buf : List Nat} (h : DELIM ∉ buf) :
    extractMessages buf = ([], buf) :=
  extractMessages_none (splitAtDelim_eq_none.mpr h)

theorem splitAtDelim_append_some {a c m r : List Nat}
    (h : splitAtDelim a = some (m, r)) :
    splitAtDelim (a ++ c) = some (m, r ++ c) := by
  induction a generalizing m r with
  | nil => simp [splitAtDelim] at h
  | cons b bs ih =>
    by_cases hb : b = DELIM
    · subst hb
      simp only [splitAtDelim, if_pos rfl, Option.some.injEq, Prod.mk.injEq] at h
      obtain ⟨rfl, rfl⟩ := h
      simp [splitAtDelim]
    · simp only [splitAtDelim, if_neg hb, Option.map_eq_some'] at h
      obtain ⟨⟨m', r'⟩, hp, heq⟩ := h
      simp only [Prod.mk.injEq] at heq
      obtain ⟨hm, hr⟩ := heq
      subst hr; subst hm
      have hg := ih hp
      simp [List.cons_append, splitAtDelim, if_neg hb, List.append_eq, hg]

theorem splitAtDelim_append_none {a c : List Nat} (h : splitAtDelim a = none) :
    splitAtDelim (a ++ c) = (splitAtDelim c).map (fun p => (a ++ p.1, p.2)) := by
  induction a with
  | nil => cases hc : splitAtDelim c <;> simp [hc]
  | cons b bs ih =>
    by_cases hb : b = DELIM
    · subst hb; simp [splitAtDelim] at h
    · simp only [splitAtDelim, if_neg hb, Option.map_eq_none'] at h
      cases hc : splitAtDelim c with
      | none => simp [splitAtDelim, if_neg hb, List.append_eq, ih h, hc]
      | some p => simp [splitAtDelim, if_neg hb, List.append_eq, ih h, hc]

/-- Extraction over a concatenation: extract from the first part, carry its
residue into the second. -/
theorem extractMessages_append (a c : List Nat) :
    extractMessages (a ++ c) =
      ((extractMessages a).1 ++ (extractMessages ((extractMessages a).2 ++ c)).1,
       (extractMessages ((extractMessages a).2 ++ c)).2) := by
  induction a using extractMessages.induct with
  | case1 a hnone =>
    rw [extractMessages_none hnone]
    simp
  | case2 a m r hsome ih =>
    rw [extractMessages_some hsome,
      extractMessages_some (splitAtDelim_append_some hsome), ih]
    by_cases hm : m = []
    · simp [hm]
    · simp [hm]

/-- The incremental feed of one chunk: append it to the accumulator and run
extraction, collecting the delivered messages. -/
def feedStep (st : List (List Nat) × List Nat) (chunk : List Nat) :
    List (List Nat) × List Nat :=
  ((st.1 ++ (extractMessages (st.2 ++ chunk)).1),
   (extractMessages (st.2 ++ chunk)).2)

/-- Feeding a sequence of received chunks through a Connection's read
accumulator, starting from an empty accumulator. -/
def feedChunks (chunks : List (List Nat)) : List (List Nat) × List Nat :=
  chunks.foldl feedStep ([], [])

theorem feedChunks_foldl (chunks : List (List Nat)) (ms : List (List Nat))
    (rem : List Nat) (hrem : DELIM ∉ rem) :
    chunks.foldl feedStep (ms, rem) =
      (ms ++ (extractMessages (rem ++ chunks.flatten)).1,
       (extractMessages (rem ++ chunks.flatten)).2) := by
  induction chunks generalizing ms rem with
  | nil =>
    simp only [List.foldl_nil, List.flatten_nil, List.append_nil]
    rw [extractMessages_no_delim hrem]
    simp
  | cons chunk rest ih =>
    simp only [List.foldl_cons, List.flatten_cons]
    rw [feedStep]
    rw [ih _ _ (extractMessages_residue _)]
    rw [← List.append_assoc]
    rw [extractMessages_append (rem ++ chunk) rest.flatten]
    simp

/-- Incremental chunk-by-chunk extraction equals batch extraction over the
whole received byte stream. -/
theorem feedChunks_eq_batch (chunks : List (List Nat)) :
    feedChunks chunks = extractMessages chunks.flatten := by
  rw [feedChunks, feedChunks_foldl chunks [] [] (by simp)]
  simp

/-- Specification-side splitter, following the spec's words: all maximal
substrings of the stream delimited by the newline byte, i.e. every
delimiter-terminated segment in order, plus the trailing bytes after the
last delimiter. -/
def delimSegments : List Nat → List (List Nat) × List Nat
  | [] => ([], [])
  | b :: bs =>
    let p := delimSegments bs
    if b = DELIM then ([] :: p.1, p.2)
    else
      match p.1 with
      | [] => ([], b :: p.2)
      | f :: fs => ((b :: f) :: fs, p.2)

theorem delimSegments_eq (l : List Nat) :
    delimSegments l =
      match splitAtDelim l with
      | none => ([], l)
      | some (m, r) => (m :: (delimSegments r).1, (delimSegments r).2) := by
  induction l with
  | nil => simp [delimSegments, splitAtDelim]
  | cons b bs ih =>
    by_cases hb : b = DELIM
    · subst hb
      simp [delimSegments, splitAtDelim]
    · simp only [delimSegments, splitAtDelim, if_neg hb]
      rw [ih]
      cases hs : splitAtDelim bs with
      | none => simp
      | some p =>
        obtain ⟨m, r⟩ := p
        simp

/-- Batch extraction delivers exactly the non-empty delimiter-terminated
segments, and leaves the trailing segment in the accumulator. -/
theorem extractMessages_spec (l : List Nat) :
    extractMessages l =
      ((delimSegments l).1.filter (fun m => !m.isEmpty), (delimSegments l).2) := by
  induction l using extractMessages.induct with
  | case1 l hnone =>
    rw [extractMessages_none hnone, delimSegments_eq, hnone]
    simp
  | case2 l m r hsome ih =>
    rw [extractMessages_some hsome, delimSegments_eq, hsome]
    by_cases hm : m = []
    · subst hm
      simp [ih]
    · have hne : (!(m : List Nat).isEmpty) = true := by
        cases m with
        | nil => exact absurd rfl hm
        | cons x xs => rfl
      simp [List.filter_cons, hm, hne, ih]

/-- Model of `MessageBuffer`: a fixed-capacity byte region.  `data` is the filled
region (the first `size_` bytes of the underlying array, which is the only
part any operation ever reads), so `size_ = data.length`; `offset` is the
partial-send cursor. -/
structure Buf where
  capacity : Nat
  data : List Nat
  offset : Nat
deriving DecidableEq

/-- Model of `MessageBuffer::MessageBuffer(capacity)`: size 0, offset 0. -/
def Buf.make (cap : Nat) : Buf := ⟨cap, [], 0⟩

/-- Model of `MessageBuffer::append(data, length)`: fails (mutating nothing) iff
`size_ + length > capacity_`; otherwise copies the bytes at the end. -/
def Buf.appendR (b : Buf) (bytes : List Nat) : Bool × Buf :=
  if b.capacity < b.data.length + bytes.length then (false, b)
  else (true, { b with data := b.data ++ bytes })

/-- Model of `MessageBuffer::append(const MessageBuffer&)`: fails iff the
other buffer's filled bytes do not fit, otherwise copies its first `size_`
bytes at the end. -/
def Buf.appendBuf (b : Buf) (other : Buf) : Bool × Buf :=
  if b.capacity < b.data.length + other.data.length then (false, b)
  else (true, { b with data := b.data ++ other.data })

/-- Model of `MessageBuffer::reset()`: size and offset back to 0, no reallocation. -/
def Buf.reset (b : Buf) : Buf :=
  { b with data := [], offset := 0 }

/-- Outcome of one `send(2)` call on the non-blocking socket: `ok k` is a
return of `k ≥ 0` bytes accepted, `eagain` is `-1` with
`errno ∈ {EAGAIN, EWOULDBLOCK}`, `fatal` is `-1` with any other errno. -/
inductive SendOutcome where
  | ok (k : Nat)
  | eagain
  | fatal
deriving DecidableEq

/-- Model of `MessageBuffer::sendPartial(fd, start_offset)`: returns immediately with
0 when `start_offset >= size_` (no socket call); otherwise offers the range
`[start_offset, size_)` to `send` and, when `k > 0` bytes are accepted, sets
`offset_ = start_offset + k`.  Result: (return value, new buffer, bytes
offered to the socket — `none` when `send` was not called). -/
def Buf.sendPartial (b : Buf) (start : Nat) (sock : SendOutcome) :
    Int × Buf × Option (List Nat) :=
  if b.data.length ≤ start then (0, b, none)
  else
    let offered := b.data.drop start
    match sock with
    | .eagain => (-1, b, some offered)
    | .fatal => (-1, b, some offered)
    | .ok k => ((k : Int), if 0 < k then { b with offset := start + k } else b,
        some offered)

/-- Model of `MessageBuffer::splitAt(position)`: `nullptr` when `position >= size_`;
otherwise a fresh buffer of the same capacity receives the tail
`[position, size_)` and, if that copy succeeds, the original is truncated to
`position`.  Result: (truncated original, new buffer). -/
def Buf.splitAt (b : Buf) (p : Nat) : Option (Buf × Buf) :=
  if b.data.length ≤ p then none
  else
    let tail := b.data.drop p
    if b.capacity < tail.length then none
    else some ({ b with data := b.data.take p },
      { capacity := b.capacity, data := tail, offset := 0 })

/-- The buffer invariant claimed by the spec:
`0 ≤ offset ≤ size ≤ capacity` (the lower bound is intrinsic to `Nat`). -/
def Buf.Inv (b : Buf) : Prop :=
  b.offset ≤ b.data.length ∧ b.data.length ≤ b.capacity

instance (b : Buf) : Decidable b.Inv := by
  unfold Buf.Inv
  infer_instance

/-- One abstract operation of a `MessageBuffer` trace.  `send start k`
performs `sendPartial(fd, start)` with the socket accepting `k` bytes;
`split p` performs `splitAt(p)` and continues with the (possibly truncated)
original buffer. -/
inductive BufOp where
  | append (bytes : List Nat)
  | send (start k : Nat)
  | reset
  | split (p : Nat)

def bufStep (b : Buf) : BufOp → Buf
  | .append bytes => (b.appendR bytes).2
  | .send start k => (b.sendPartial start (.ok k)).2.1
  | .reset => b.reset
  | .split p =>
    match b.splitAt p with
    | none => b
    | some (bo, _) => bo

/-- Model of `MessageBufferPool`: a free-list (`available_buffers_`, most recently
released first) plus the count of buffers currently out (`active_buffers_`).
The redundant `pool_size_` counter always equals `available.length`. -/
structure Pool where
  buffer_size : Nat
  available : List Buf
  active : Nat
deriving DecidableEq

/-- The constructor pre-allocates 10 buffers into the free-list. -/
def Pool.init (bsize : Nat) : Pool :=
  ⟨bsize, List.replicate 10 (Buf.make bsize), 0⟩

/-- Model of `MessageBufferPool::acquire()`: pop from the free-list (resetting the
buffer) when non-empty; otherwise allocate a fresh buffer while
`active_buffers_ < MAX_POOL_SIZE`; otherwise `nullptr`. -/
def Pool.acquire (p : Pool) : Option Buf × Pool :=
  match p.available with
  | b :: rest =>
    (some b.reset, { p with available := rest, active := p.active + 1 })
  | [] =>
    if p.active < MAX_POOL_SIZE then
      (some (Buf.make p.buffer_size), { p with active := p.active + 1 })
    else
      (none, p)

/-- Model of `MessageBufferPool::release(buffer)`: push the reset buffer onto the
free-list when it has room, else destroy it; `active_buffers_` is
decremented either way. -/
def Pool.release (p : Pool) (b : Buf) : Pool :=
  if p.available.length < MAX_POOL_SIZE then
    { p with available := b.reset :: p.available, active := p.active - 1 }
  else
    { p with active := p.active - 1 }

/-- One pool call.  `release b` hands back a buffer previously acquired
from this pool. -/
inductive PoolOp where
  | acquire
  | release (b : Buf)

/-- A pool call in a well-formed trace: a `release` only occurs while at
least one buffer is out (it returns a previously acquired one). -/
def poolStep (p : Pool) : PoolOp → Option Pool
  | .acquire => some (p.acquire).2
  | .release b => if p.active = 0 then none else some (p.release b)

def poolRun : Pool → List PoolOp → Option Pool
  | p, [] => some p
  | p, op :: ops =>
    match poolStep p op with
    | none => none
    | some p' => poolRun p' ops

/-- Model of `MessageQueue`: FIFO of pooled buffers plus its own
`MessageBufferPool(DEFAULT_BUFFER_SIZE)`. -/
structure MsgQueue where
  messages : List Buf
  pool : Pool
deriving DecidableEq

def MsgQueue.init : MsgQueue := ⟨[], Pool.init DEFAULT_BUFFER_SIZE⟩

/-- Model of `MessageQueue::enqueue(data, length)`: acquire a buffer (failing when
the pool is exhausted), append the bytes (failing and releasing the buffer
when they do not fit), and only then push the buffer at the back. -/
def MsgQueue.enqueue (q : MsgQueue) (bytes : List Nat) : Bool × MsgQueue :=
  match q.pool.acquire with
  | (none, p') => (false, { q with pool := p' })
  | (some b, p') =>
    let r := b.appendR bytes
    if r.1 then (true, { messages := q.messages ++ [r.2], pool := p' })
    else (false, { q with pool := p'.release r.2 })

/-- Model of `MessageQueue::pop()`: remove the head buffer and release it back to
the pool. -/
def MsgQueue.pop (q : MsgQueue) : MsgQueue :=
  match q.messages with
  | [] => q
  | b :: rest => { messages := rest, pool := q.pool.release b }

/-- Model of `MemoryTracker`: process-wide current and peak byte counters (the
claims treat operations sequentially, so the CAS peak loop is the `max`
update). -/
structure Tracker where
  current : Nat
  peak : Nat
deriving DecidableEq

/-- Model of `MemoryTracker::allocate(bytes)`: `current += bytes`, then raise peak
to the new current if larger. -/
def Tracker.allocate (t : Tracker) (n : Nat) : Tracker :=
  { current := t.current + n, peak := max t.peak (t.current + n) }

/-- Model of `MemoryTracker::deallocate(bytes)`: `current -= bytes`. -/
def Tracker.deallocate (t : Tracker) (n : Nat) : Tracker :=
  { t with current := t.current - n }

/-- Model of `MemoryTracker::isMemoryLimitExceeded()`: `current > MAX_MEMORY_BYTES`. -/
def Tracker.isExceeded (t : Tracker) : Bool :=
  decide (MAX_MEMORY_BYTES < t.current)

/-- Model of `MemoryTracker::reset()`: both counters to 0. -/
def Tracker.clear (_ : Tracker) : Tracker := ⟨0, 0⟩

inductive TrackerOp where
  | alloc (n : Nat)
  | dealloc (n : Nat)
  | clear
deriving DecidableEq

def trackerStep (t : Tracker) : TrackerOp → Tracker
  | .alloc n => t.allocate n
  | .dealloc n => t.deallocate n
  | .clear => t.clear

/-- Per-connection state of the pooled `ConnectionHandler`: connected flag,
read accumulator, pre-allocated scratch buffer (`temp_buffer_`, capacity
`MAX_MESSAGE_SIZE`), and the outbound `MessageQueue`. -/
structure Conn where
  connected : Bool
  read_buffer : List Nat
  temp_buffer : Buf
  send_queue : MsgQueue
deriving DecidableEq

/-- Model of `ConnectionHandler::processIncomingData()`: force disconnect when the
read accumulator exceeds `MAX_MESSAGE_SIZE * 10`, otherwise extract
complete messages.  Returns the new state and the frames handed to the
handler. -/
def Conn.processIncomingData (c : Conn) : Conn × List (List Nat) :=
  if MAX_MESSAGE_SIZE * 10 < c.read_buffer.length then
    ({ c with connected := false }, [])
  else
    let e := extractMessages c.read_buffer
    ({ c with read_buffer := e.2 }, e.1)

/-- One `recv(2)` outcome on the non-blocking socket: end-of-stream (0),
`EAGAIN`/`EWOULDBLOCK`, a real error, or a chunk of bytes (> 0). -/
inductive RecvResult where
  | eof
  | again
  | ioErr
  | chunk (bytes : List Nat)
deriving DecidableEq

inductive DrainExit where
  | normal
  | eofExit
  | errExit
deriving DecidableEq

/-- The drain loop of `ConnectionHandler::handleRead`: keep receiving until
`EAGAIN` (or a chunk shorter than the 4096-byte stack buffer), appending
each chunk to the accumulator.  Returns the accumulator, whether any data
arrived, and how the loop ended. -/
def drainLoop : List RecvResult → List Nat → List Nat × Bool × DrainExit
  | [], buf => (buf, false, .normal)
  | .eof :: _, buf => (buf, false, .eofExit)
  | .again :: _, buf => (buf, false, .normal)
  | .ioErr :: _, buf => (buf, false, .errExit)
  | .chunk bytes :: rest, buf =>
    if bytes.length < 4096 then (buf ++ bytes, true, .normal)
    else
      let d := drainLoop rest (buf ++ bytes)
      (d.1, true, d.2.2)

/-- Model of `ConnectionHandler::handleRead()`: no-op when disconnected; drain the
socket; EOF or a real `recv` error force disconnect (no extraction); a
normal exit processes the data received, if any. -/
def Conn.handleRead (c : Conn) (script : List RecvResult) :
    Conn × List (List Nat) :=
  if !c.connected then (c, [])
  else
    let d := drainLoop script c.read_buffer
    match d.2.2 with
    | .eofExit => ({ c with read_buffer := d.1, connected := false }, [])
    | .errExit => ({ c with read_buffer := d.1, connected := false }, [])
    | .normal =>
      if d.2.1 then Conn.processIncomingData { c with read_buffer := d.1 }
      else ({ c with read_buffer := d.1 }, [])

/-- The flush loop of `ConnectionHandler::handleWrite`: repeatedly
`sendPartial` on the head buffer from its stored offset; `EAGAIN` and a
0-byte send break the loop, a real error disconnects, completed buffers are
popped (released to the pool), and partial sends continue with the advanced
cursor. -/
def writeLoop : Conn → List SendOutcome → Conn
  | c, script =>
    match c.send_queue.messages with
    | [] => c
    | buf :: rest =>
      if buf.data.length ≤ buf.offset then c
      else
        match script with
        | [] => c
        | sock :: s' =>
          let r := buf.sendPartial buf.offset sock
          match sock with
          | .eagain => c
          | .fatal => { c with connected := false }
          | .ok k =>
            if k = 0 then c
            else
              let b' := r.2.1
              let q' := MsgQueue.mk (b' :: rest) c.send_queue.pool
              if b'.data.length ≤ b'.offset then
                writeLoop { c with send_queue := q'.pop } s'
              else
                writeLoop { c with send_queue := q' } s'

/-- Model of `ConnectionHandler::handleWrite()`: no-op when disconnected or when the
queue is empty, otherwise run the flush loop. -/
def Conn.handleWrite (c : Conn) (script : List SendOutcome) : Conn :=
  if !c.connected || c.send_queue.messages.isEmpty then c
  else writeLoop c script

/-- Model of `ConnectionHandler::sendMessage` (pooled variant): reset the
scratch buffer, append the payload (return value ignored), then execute
`temp_buffer_->append(MESSAGE_DELIMITER)`.  By C++ overload resolution that
call appends no delimiter byte: `MESSAGE_DELIMITER` is a `char`, no
`append` overload takes a `char` or converts it to `std::string`, so the
only viable overload is `append(const MessageBuffer&)`, reached through the
integral conversion `char → size_t` and the non-explicit constructor
`MessageBuffer(size_t)`; the temporary `MessageBuffer(10)` has `size_ = 0`,
so zero bytes are appended.  Finally the scratch contents are enqueued
(the bool discarded; the function returns `void`). -/
def Conn.sendMessage (c : Conn) (message : List Nat) : Conn :=
  if !c.connected then c
  else
    let t1 := (c.temp_buffer.reset.appendR message).2
    let t2 := (t1.appendBuf (Buf.make 10)).2
    { c with temp_buffer := t2, send_queue := (c.send_queue.enqueue t2.data).2 }

/-- A concrete connected Connection with one pending outbound buffer,
used to instantiate the theorems below on explicit inputs. -/
def connEx : Conn :=
  Conn.mk true [] (Buf.make 4096)
    (MsgQueue.mk [Buf.mk 4 [1, 2] 0] (Pool.init 1024))

/-! ## Claim theorems -/

/-- C1. For every sequence of byte chunks appended to a Connection's read
accumulator, extraction (`ConnectionHandler::extractMessages` run after each
chunk) invokes the handler with exactly the non-empty maximal
newline-delimited substrings of the concatenated stream, in wire order;
each prefix is removed together with its delimiter, so what remains in the
accumulator is exactly the trailing bytes after the last delimiter, and
empty frames are silently skipped. -/
theorem extract_delivers_frames_in_order (chunks : List (List Nat)) :
    feedChunks chunks =
      ((delimSegments chunks.flatten).1.filter (fun m => !m.isEmpty),
       (delimSegments chunks.flatten).2) := by
  rw [feedChunks_eq_batch, extractMessages_spec]

/-- C2. Whenever the read accumulator holds more than
`10 * MAX_MESSAGE_SIZE` bytes when incoming data is processed, the
Connection is forced to disconnected, no frame is extracted, and the
handler is not invoked for that data. -/
theorem overflow_forces_disconnect (c : Conn)
    (h : MAX_MESSAGE_SIZE * 10 < c.read_buffer.length) :
    c.processIncomingData = ({ c with connected := false }, []) := by
  unfold Conn.processIncomingData
  rw [if_pos h]

/-- Witness for C2: a 40961-byte accumulator (one past the cap) forces
disconnect with no extraction. -/
theorem overflow_forces_disconnect_witness :
    (Conn.mk true (List.replicate 40961 0) (Buf.make 4096)
        MsgQueue.init).processIncomingData =
      (Conn.mk false (List.replicate 40961 0) (Buf.make 4096)
        MsgQueue.init, []) :=
  overflow_forces_disconnect _
    (by rw [List.length_replicate]; norm_num [MAX_MESSAGE_SIZE])

/-- Helper: a drain whose script holds neither EOF nor a real error always
ends normally (EAGAIN or short chunk or no more events). -/
theorem drainLoop_no_fatal (script : List RecvResult) (buf : List Nat)
    (h1 : RecvResult.eof ∉ script) (h2 : RecvResult.ioErr ∉ script) :
    (drainLoop script buf).2.2 = DrainExit.normal := by
  induction script generalizing buf with
  | nil => rfl
  | cons r rest ih =>
    cases r with
    | eof => exact absurd (List.mem_cons_self _ _) h1
    | again => rfl
    | ioErr => exact absurd (List.mem_cons_self _ _) h2
    | chunk bytes =>
      have h1' : RecvResult.eof ∉ rest := fun hm => h1 (List.mem_cons_of_mem _ hm)
      have h2' : RecvResult.ioErr ∉ rest := fun hm => h2 (List.mem_cons_of_mem _ hm)
      by_cases hlen : bytes.length < 4096
      · simp [drainLoop, hlen]
      · simp [drainLoop, hlen, ih _ h1' h2']

/-- Helper: a flush loop whose script holds no fatal send outcome never
changes the connected flag. -/
theorem writeLoop_no_fatal (script : List SendOutcome) (c : Conn)
    (h : SendOutcome.fatal ∉ script) :
    (writeLoop c script).connected = c.connected := by
  induction script generalizing c with
  | nil =>
    rw [writeLoop]
    cases hm : c.send_queue.messages with
    | nil => rfl
    | cons buf rest =>
      by_cases hb : buf.data.length ≤ buf.offset
      · simp [hb]
      · simp [hb]
  | cons sock s' ih =>
    rw [writeLoop]
    cases hm : c.send_queue.messages with
    | nil => rfl
    | cons buf rest =>
      by_cases hb : buf.data.length ≤ buf.offset
      · simp [hb]
      · cases sock with
        | eagain => simp [hb]
        | fatal => exact absurd (List.mem_cons_self _ _) h
        | ok k =>
          have h' : SendOutcome.fatal ∉ s' := fun hmem => h (List.mem_cons_of_mem _ hmem)
          have ihs : ∀ d : Conn, (writeLoop d s').connected = d.connected :=
            fun d => ih d h'
          by_cases hk : k = 0
          · simp [hb, hk]
          · by_cases hdone : ((buf.sendPartial buf.offset (.ok k)).2.1).data.length ≤
                ((buf.sendPartial buf.offset (.ok k)).2.1).offset
            · simp [hb, hk, hdone, ihs]
            · simp [hb, hk, hdone, ihs]

/-- C3. A read or write reporting EAGAIN/EWOULDBLOCK never transitions the
Connection to disconnected — it only terminates the drain or flush loop
(conjuncts 1, 2, 6, 7) — while a read returning end-of-stream or any other
I/O error (conjuncts 3, 4, 5), and a write failing with any other error
(conjunct 8), transition that Connection — the only state these per-handler
functions touch — to disconnected. -/
theorem transient_io_not_fatal (c : Conn) (script rest : List RecvResult)
    (wscript : List SendOutcome) (buf : Buf) (brest : List Buf)
    (s' : List SendOutcome)
    (hq : c.send_queue.messages = buf :: brest)
    (hpend : buf.offset < buf.data.length) :
    c.handleRead (.again :: rest) = (c, []) ∧
    (RecvResult.eof ∉ script → RecvResult.ioErr ∉ script →
      (drainLoop script c.read_buffer).2.2 = DrainExit.normal) ∧
    (drainLoop (.eof :: rest) c.read_buffer).2.2 = DrainExit.eofExit ∧
    (drainLoop (.ioErr :: rest) c.read_buffer).2.2 = DrainExit.errExit ∧
    (c.connected = true →
      (drainLoop script c.read_buffer).2.2 ≠ DrainExit.normal →
      (c.handleRead script).1.connected = false ∧ (c.handleRead script).2 = []) ∧
    (SendOutcome.fatal ∉ wscript →
      (c.handleWrite wscript).connected = c.connected) ∧
    writeLoop c (SendOutcome.eagain :: s') = c ∧
    (c.connected = true →
      (c.handleWrite (SendOutcome.fatal :: s')).connected = false) := by
  have hnb : ¬ buf.data.length ≤ buf.offset := by omega
  refine ⟨?_, ?_, rfl, rfl, ?_, ?_, ?_, ?_⟩
  · obtain ⟨cc, rb, tb, sq⟩ := c
    cases cc <;> simp [Conn.handleRead, drainLoop]
  · exact fun h1 h2 => drainLoop_no_fatal script c.read_buffer h1 h2
  · intro hc hne
    cases hexit : (drainLoop script c.read_buffer).2.2 with
    | normal => exact absurd hexit hne
    | eofExit => constructor <;> simp [Conn.handleRead, hc, hexit]
    | errExit => constructor <;> simp [Conn.handleRead, hc, hexit]
  · intro hnf
    by_cases hg : (!c.connected || c.send_queue.messages.isEmpty) = true
    · simp [Conn.handleWrite, hg]
    · simp [Conn.handleWrite, hg, writeLoop_no_fatal _ _ hnf]
  · rw [writeLoop, hq]
    simp [hnb]
  · intro hc
    have hg : (!c.connected || c.send_queue.messages.isEmpty) = false := by
      simp [hc, hq]
    rw [Conn.handleWrite, hg]
    rw [writeLoop, hq]
    simp [hnb]

/-- Witness for C3: on a concrete connection, EAGAIN on read and write is a
pure loop exit, EOF and a real error disconnect. -/
theorem transient_io_not_fatal_witness :
    connEx.handleRead [RecvResult.again] = (connEx, []) ∧
    (drainLoop [RecvResult.again] connEx.read_buffer).2.2 = DrainExit.normal ∧
    (drainLoop [RecvResult.eof] connEx.read_buffer).2.2 = DrainExit.eofExit ∧
    (drainLoop [RecvResult.ioErr] connEx.read_buffer).2.2 = DrainExit.errExit ∧
    (connEx.handleRead [RecvResult.eof]).1.connected = false ∧
    (connEx.handleWrite [SendOutcome.eagain]).connected = true ∧
    writeLoop connEx [SendOutcome.eagain] = connEx ∧
    (connEx.handleWrite [SendOutcome.fatal]).connected = false := by
  have T1 := transient_io_not_fatal connEx [RecvResult.again] []
    [SendOutcome.eagain] (Buf.mk 4 [1, 2] 0) [] [] rfl (by decide)
  have T2 := transient_io_not_fatal connEx [RecvResult.eof] []
    [SendOutcome.eagain] (Buf.mk 4 [1, 2] 0) [] [] rfl (by decide)
  exact ⟨T1.1, T1.2.1 (by decide) (by decide), T1.2.2.1, T1.2.2.2.1,
    (T2.2.2.2.2.1 rfl (by decide)).1, T1.2.2.2.2.2.1 (by decide),
    T1.2.2.2.2.2.2.1, T1.2.2.2.2.2.2.2 rfl⟩

/-- Helper: when the payload does not fit the scratch buffer, `sendMessage`
leaves the scratch empty and offers an empty byte string to the queue. -/
theorem sendMessage_overflow_queue (c : Conn) (payload : List Nat)
    (hc : c.connected = true)
    (hcap : c.temp_buffer.capacity < payload.length) :
    (c.sendMessage payload).send_queue = (c.send_queue.enqueue []).2 ∧
    (c.sendMessage payload).temp_buffer.data = [] := by
  have hfit : ¬ c.temp_buffer.capacity < 0 := by omega
  have hfit' : ¬ c.temp_buffer.capacity < 0 + 0 := by omega
  simp [Conn.sendMessage, hc, Buf.appendR, Buf.appendBuf, Buf.make, Buf.reset,
    hcap, hfit, hfit']

/-- Counterexample to C4 as stated: the delimiter-append line resolves to
`append(const MessageBuffer&)` on an empty temporary and writes nothing, so
a 2-byte payload is enqueued WITHOUT its delimiter (the claim requires
payload followed by the delimiter, and exactly those bytes enqueued); and a
4097-byte payload, which does not fit the 4096-byte scratch, is not
dropped — an empty frame is enqueued onto the outbound queue (and
`sendMessage`, being void, surfaces nothing). -/
theorem sendMessage_partial_frame_counterexample :
    ((Conn.mk true [] (Buf.make 4096) MsgQueue.init).sendMessage
        [72, 105]).temp_buffer.data = [72, 105] ∧
    ((Conn.mk true [] (Buf.make 4096) MsgQueue.init).sendMessage
        [72, 105]).send_queue.messages = [Buf.mk 1024 [72, 105] 0] ∧
    4096 < (List.replicate 4097 65).length ∧
    ((Conn.mk true [] (Buf.make 4096) MsgQueue.init).sendMessage
        (List.replicate 4097 65)).send_queue.messages = [Buf.mk 1024 [] 0] := by
  have hlen : (List.replicate 4097 65).length = 4097 := by
    rw [List.length_replicate]
  have h := sendMessage_overflow_queue
    (Conn.mk true [] (Buf.make 4096) MsgQueue.init)
    (List.replicate 4097 65) rfl (by rw [hlen]; decide)
  refine ⟨rfl, rfl, by rw [hlen]; norm_num, ?_⟩
  rw [h.1]
  rfl

/-- C4 (amended). For every connected Connection, sendMessage resets the
scratch buffer and appends the payload when it fits (the scratch stays
empty otherwise); the `append(MESSAGE_DELIMITER)` line appends an empty
temporary buffer and never writes the delimiter byte, so the scratch then
holds exactly the payload, or nothing; exactly those scratch contents are
offered to the outbound queue — the payload without a delimiter when it
fits, an empty frame when it does not.  When the queue rejects the bytes
nothing is enqueued; append and enqueue failures are discarded
(`sendMessage` is void), so no failure is surfaced to the caller. -/
theorem sendMessage_formats_scratch (c : Conn) (payload : List Nat)
    (q : MsgQueue) (bytes : List Nat)
    (hc : c.connected = true) :
    (c.sendMessage payload).temp_buffer.data =
      (if payload.length ≤ c.temp_buffer.capacity then payload else []) ∧
    (c.sendMessage payload).send_queue =
      (c.send_queue.enqueue ((c.sendMessage payload).temp_buffer.data)).2 ∧
    ((q.enqueue bytes).1 = false → (q.enqueue bytes).2.messages = q.messages) := by
  refine ⟨?_, ?_, ?_⟩
  · by_cases h1 : payload.length ≤ c.temp_buffer.capacity
    · have ha : ¬ c.temp_buffer.capacity < 0 + payload.length := by omega
      have ha0 : ¬ c.temp_buffer.capacity < payload.length := by omega
      have hb : ¬ c.temp_buffer.capacity < payload.length + 0 := by omega
      simp [Conn.sendMessage, hc, Buf.appendR, Buf.appendBuf, Buf.make,
        Buf.reset, ha, ha0, hb, h1]
    · have hcap : c.temp_buffer.capacity < payload.length := by omega
      have h := sendMessage_overflow_queue c payload hc hcap
      simp [h.2, h1]
  · obtain ⟨cc, rb, tb, sq⟩ := c
    cases cc
    · simp at hc
    · rfl
  · intro hfail
    cases hacq : q.pool.acquire with
    | mk opt p' =>
      cases opt with
      | none => simp [MsgQueue.enqueue, hacq]
      | some b =>
        by_cases happ : (b.appendR bytes).1 = true
        · simp [MsgQueue.enqueue, hacq, happ] at hfail
        · simp [MsgQueue.enqueue, hacq, happ]

/-- Witness for C4 (amended): a fitting payload ends up in the scratch and
is offered to the queue without a delimiter; an exhausted pool rejects with
the queue unchanged. -/
theorem sendMessage_formats_scratch_witness :
    ((Conn.mk true [] (Buf.make 8) MsgQueue.init).sendMessage
        [1, 2]).temp_buffer.data = [1, 2] ∧
    ((Conn.mk true [] (Buf.make 8) MsgQueue.init).sendMessage [1, 2]).send_queue =
      ((Conn.mk true [] (Buf.make 8) MsgQueue.init).send_queue.enqueue
        (((Conn.mk true [] (Buf.make 8) MsgQueue.init).sendMessage
          [1, 2]).temp_buffer.data)).2 ∧
    ((MsgQueue.mk [] (Pool.mk 1024 [] 50)).enqueue [1]).2.messages = [] := by
  have h := sendMessage_formats_scratch (Conn.mk true [] (Buf.make 8) MsgQueue.init)
    [1, 2] (MsgQueue.mk [] (Pool.mk 1024 [] 50)) [1] rfl
  exact ⟨h.1, h.2.1, h.2.2 (by decide)⟩

/-- Counterexample to C5 as stated: fill a capacity-8 buffer with 5 bytes,
send 3 of them (offset becomes 3), then `splitAt 1`.  `splitAt` truncates
the size to 1 but leaves the offset at 3, so `offset ≤ size` fails after
the operation. -/
theorem buffer_invariant_counterexample :
    ¬ (([BufOp.append [1, 2, 3, 4, 5], BufOp.send 0 3, BufOp.split 1].foldl
          bufStep (Buf.make 8)).offset ≤
        ([BufOp.append [1, 2, 3, 4, 5], BufOp.send 0 3, BufOp.split 1].foldl
          bufStep (Buf.make 8)).data.length) := by
  decide

/-- C5 (amended).  `0 ≤ offset ≤ size ≤ capacity` holds after every
`append` (which never grows size past capacity), `sendPartial` (with the
socket accepting at most the offered bytes; it never grows offset past
size) and `reset` (which zeroes size and offset); `splitAt p` preserves the
invariant in both resulting buffers when `p ≥ offset`, but it leaves the
original buffer's offset unchanged, so `offset ≤ size` is lost exactly when
`p < offset` (see the counterexample). -/
theorem buffer_invariant_preserved (b : Buf) (bytes : List Nat)
    (start k p : Nat) (bo bn : Buf)
    (hinv : b.Inv)
    (hk : start < b.data.length → start + k ≤ b.data.length)
    (hp : b.offset ≤ p) :
    ((b.appendR bytes).2).Inv ∧
    ((b.appendR bytes).2).data.length ≤ b.capacity ∧
    ((b.sendPartial start (.ok k)).2.1).Inv ∧
    b.reset.Inv ∧
    b.reset.data.length = 0 ∧
    b.reset.offset = 0 ∧
    (b.splitAt p = some (bo, bn) → bo.Inv ∧ bn.Inv) := by
  obtain ⟨hi1, hi2⟩ := hinv
  refine ⟨?_, ?_, ?_, by simp [Buf.reset, Buf.Inv], rfl, rfl, ?_⟩
  · unfold Buf.appendR
    by_cases hfull : b.capacity < b.data.length + bytes.length
    · simpa [hfull, Buf.Inv] using ⟨hi1, hi2⟩
    · simp [hfull, Buf.Inv]
      omega
  · unfold Buf.appendR
    by_cases hfull : b.capacity < b.data.length + bytes.length
    · simpa [hfull] using hi2
    · simp [hfull]
      omega
  · unfold Buf.sendPartial
    by_cases hs : b.data.length ≤ start
    · simpa [hs, Buf.Inv] using ⟨hi1, hi2⟩
    · by_cases hk0 : 0 < k
      · have hkk := hk (by omega)
        simp [hs, hk0, Buf.Inv]
        omega
      · simpa [hs, hk0, Buf.Inv] using ⟨hi1, hi2⟩
  · intro hsp
    unfold Buf.splitAt at hsp
    by_cases hpe : b.data.length ≤ p
    · simp [hpe] at hsp
    · by_cases hover : b.capacity < (b.data.drop p).length
      · exfalso
        simp [List.length_drop] at hover
        have hh := hsp
        simp [hpe] at hh
        omega
      · simp only [if_neg hpe, if_neg hover, Option.some.injEq, Prod.mk.injEq] at hsp
        obtain ⟨hbo, hbn⟩ := hsp
        subst hbo
        subst hbn
        constructor
        · simp [Buf.Inv, List.length_take]
          omega
        · simp [Buf.Inv, List.length_drop] at hover ⊢
          omega

/-- Witness for C5 (amended): the invariant survives a concrete append,
partial send, reset and an offset-respecting split. -/
theorem buffer_invariant_preserved_witness :
    ((Buf.mk 8 [1, 2, 3, 4, 5] 1).appendR [6]).2.Inv ∧
    ((Buf.mk 8 [1, 2, 3, 4, 5] 1).sendPartial 1 (.ok 2)).2.1.Inv ∧
    (Buf.mk 8 [1, 2, 3, 4, 5] 1).reset.Inv ∧
    (Buf.mk 8 [1, 2] 1).Inv ∧
    (Buf.mk 8 [3, 4, 5] 0).Inv := by
  have h := buffer_invariant_preserved (Buf.mk 8 [1, 2, 3, 4, 5] 1) [6] 1 2 2
    (Buf.mk 8 [1, 2] 1) (Buf.mk 8 [3, 4, 5] 0)
    (by decide) (fun _ => by decide) (by decide)
  have hs := h.2.2.2.2.2.2 (by decide)
  exact ⟨h.1, h.2.2.1, h.2.2.2.1, hs.1, hs.2⟩

/-- C6. For every buffer with `startOffset < size`, `sendPartial` offers
exactly the byte range `[startOffset, size)` to the socket, and when the
socket accepts `k > 0` bytes the offset becomes `startOffset + k` with the
contents and size untouched, so a subsequent flush resumes by offering
exactly the bytes from that offset. -/
theorem sendPartial_offers_range (b : Buf) (start k : Nat) (sock : SendOutcome)
    (hs : start < b.data.length) (hk : 0 < k)
    (hkle : start + k ≤ b.data.length) :
    b.sendPartial start (.ok k) =
      ((k : Int), { b with offset := start + k }, some (b.data.drop start)) ∧
    ({ b with offset := start + k } : Buf).data = b.data ∧
    (start + k < b.data.length →
      (({ b with offset := start + k } : Buf).sendPartial (start + k) sock).2.2 =
        some (b.data.drop (start + k))) := by
  have hns : ¬ b.data.length ≤ start := by omega
  refine ⟨?_, rfl, ?_⟩
  · simp [Buf.sendPartial, hns, hk]
  · intro h3
    have hns3 : ¬ ({ b with offset := start + k } : Buf).data.length ≤ start + k := by
      simp
      omega
    cases sock <;> simp [Buf.sendPartial, hns3]

/-- Witness for C6: a 5-byte buffer, flush from offset 1 with 2 bytes
accepted, then the next flush offers the bytes from offset 3. -/
theorem sendPartial_offers_range_witness :
    (Buf.mk 8 [1, 2, 3, 4, 5] 0).sendPartial 1 (.ok 2) =
      ((2 : Int), Buf.mk 8 [1, 2, 3, 4, 5] 3, some [2, 3, 4, 5]) ∧
    ((Buf.mk 8 [1, 2, 3, 4, 5] 3).sendPartial 3 SendOutcome.eagain).2.2 =
      some [4, 5] := by
  have h := sendPartial_offers_range (Buf.mk 8 [1, 2, 3, 4, 5] 0) 1 2
    SendOutcome.eagain (by decide) (by decide) (by decide)
  exact ⟨h.1, h.2.2 (by decide)⟩

/-- Helper: one well-formed pool call preserves the bound
`active + free ≤ MAX_POOL_SIZE`. -/
theorem poolStep_bound {p p' : Pool} {op : PoolOp}
    (h : poolStep p op = some p')
    (hb : p.active + p.available.length ≤ MAX_POOL_SIZE) :
    p'.active + p'.available.length ≤ MAX_POOL_SIZE := by
  cases op with
  | acquire =>
    simp only [poolStep, Option.some.injEq] at h
    subst h
    unfold Pool.acquire
    cases hav : p.available with
    | nil =>
      by_cases hlt : p.active < MAX_POOL_SIZE
      · simp [hlt]
        omega
      · simp [hlt]
        omega
    | cons b rest =>
      simp only []
      rw [hav] at hb
      simp at hb ⊢
      omega
  | release b =>
    simp only [poolStep] at h
    by_cases hz : p.active = 0
    · simp [hz] at h
    · rw [if_neg hz] at h
      simp only [Option.some.injEq] at h
      subst h
      unfold Pool.release
      by_cases hroom : p.available.length < MAX_POOL_SIZE
      · simp [hroom]
        omega
      · simp [hroom]
        omega

/-- Helper: the bound `active + free ≤ MAX_POOL_SIZE` is preserved along
any well-formed trace of pool calls. -/
theorem poolRun_bound (ops : List PoolOp) (p p' : Pool)
    (hb : p.active + p.available.length ≤ MAX_POOL_SIZE)
    (h : poolRun p ops = some p') :
    p'.active + p'.available.length ≤ MAX_POOL_SIZE := by
  induction ops generalizing p with
  | nil =>
    simp only [poolRun, Option.some.injEq] at h
    subst h
    exact hb
  | cons op ops ih =>
    simp only [poolRun] at h
    cases hstep : poolStep p op with
    | none => rw [hstep] at h; cases h
    | some q =>
      rw [hstep] at h
      exact ih q (poolStep_bound hstep hb) h

/-- C7. Along every well-formed sequence of acquire/release calls starting
from a freshly constructed pool, acquired + free never exceeds
`MAX_POOL_SIZE`; acquire pops and resets a free-list buffer when one
exists, allocates fresh only while the acquired count is below the cap and
otherwise returns null; release with a full free-list destroys the buffer
(the free-list does not grow) while still decrementing the acquired
count. -/
theorem pool_never_exceeds_max (ops : List PoolOp) (p' : Pool) (sz : Nat)
    (q : Pool) (b : Buf) (rest : List Buf)
    (hrun : poolRun (Pool.init sz) ops = some p') :
    p'.active + p'.available.length ≤ MAX_POOL_SIZE ∧
    (q.available = b :: rest →
      q.acquire = (some b.reset,
        { q with available := rest, active := q.active + 1 })) ∧
    (q.available = [] → q.active < MAX_POOL_SIZE →
      q.acquire = (some (Buf.make q.buffer_size),
        { q with active := q.active + 1 })) ∧
    (q.available = [] → MAX_POOL_SIZE ≤ q.active → q.acquire = (none, q)) ∧
    (MAX_POOL_SIZE ≤ q.available.length →
      (q.release b).available = q.available ∧
      (q.release b).active = q.active - 1) := by
  refine ⟨?_, ?_, ?_, ?_, ?_⟩
  · apply poolRun_bound ops (Pool.init sz) p' _ hrun
    simp [Pool.init, MAX_POOL_SIZE]
  · intro hav
    unfold Pool.acquire
    rw [hav]
  · intro hav hlt
    unfold Pool.acquire
    rw [hav]
    simp [hlt]
  · intro hav hge
    unfold Pool.acquire
    rw [hav]
    simp [Nat.not_lt.mpr hge]
  · intro hfull
    unfold Pool.release
    simp [Nat.not_lt.mpr hfull]

/-- Witness for C7: a concrete trace (11 acquires and a release against a
fresh pool) respects the bound, and the acquire/release equations hold on
concrete pools. -/
theorem pool_never_exceeds_max_witness :
    ((Pool.init 1024).acquire.2).active +
      ((Pool.init 1024).acquire.2).available.length ≤ MAX_POOL_SIZE ∧
    (Pool.mk 1024 [Buf.mk 1024 [7] 1] 3).acquire =
      (some (Buf.mk 1024 [] 0), Pool.mk 1024 [] 4) ∧
    (Pool.mk 1024 [] 3).acquire = (some (Buf.make 1024), Pool.mk 1024 [] 4) ∧
    (Pool.mk 1024 [] 50).acquire = (none, Pool.mk 1024 [] 50) ∧
    ((Pool.mk 1024 (List.replicate 50 (Buf.make 1024)) 7).release
        (Buf.mk 1024 [7] 1)).available =
      List.replicate 50 (Buf.make 1024) := by
  have h1 := pool_never_exceeds_max [PoolOp.acquire]
    ((Pool.init 1024).acquire.2) 1024 (Pool.mk 1024 [] 50)
    (Buf.mk 1024 [7] 1) [] rfl
  have h2 := pool_never_exceeds_max ([] : List PoolOp) (Pool.init 1024) 1024
    (Pool.mk 1024 [Buf.mk 1024 [7] 1] 3) (Buf.mk 1024 [7] 1) [] rfl
  have h3 := pool_never_exceeds_max ([] : List PoolOp) (Pool.init 1024) 1024
    (Pool.mk 1024 [] 3) (Buf.mk 1024 [7] 1) [] rfl
  have h4 := pool_never_exceeds_max ([] : List PoolOp) (Pool.init 1024) 1024
    (Pool.mk 1024 [] 50) (Buf.mk 1024 [7] 1) [] rfl
  have h5 := pool_never_exceeds_max ([] : List PoolOp) (Pool.init 1024) 1024
    (Pool.mk 1024 (List.replicate 50 (Buf.make 1024)) 7)
    (Buf.mk 1024 [7] 1) [] rfl
  exact ⟨h1.1, h2.2.1 rfl, h3.2.2.1 rfl (by decide),
    h4.2.2.2.1 rfl (by decide), (h5.2.2.2.2 (by decide)).1⟩

/-- C8. Taken sequentially, `allocate n` adds `n` to the current counter
and raises the peak to the maximum of its old value and the new current;
`deallocate n` subtracts `n` from current; no operation other than `reset`
ever lowers the peak; and `isMemoryLimitExceeded` holds exactly when
current exceeds the 100 MiB ceiling. -/
theorem tracker_counters (t : Tracker) (n m : Nat) (op : TrackerOp)
    (hm : m ≤ t.current) (hop : op ≠ TrackerOp.clear) :
    (t.allocate n).current = t.current + n ∧
    (t.allocate n).peak = max t.peak (t.current + n) ∧
    (t.deallocate m).current + m = t.current ∧
    t.peak ≤ (trackerStep t op).peak ∧
    (t.isExceeded = true ↔ 100 * 1024 * 1024 < t.current) := by
  refine ⟨rfl, rfl, ?_, ?_, ?_⟩
  · simp [Tracker.deallocate]
    omega
  · cases op with
    | alloc j => simp [trackerStep, Tracker.allocate]
    | dealloc j => simp [trackerStep, Tracker.deallocate]
    | clear => exact absurd rfl hop
  · simp [Tracker.isExceeded, MAX_MEMORY_BYTES]

/-- Witness for C8 on concrete counters: allocate 3 onto current 5 / peak 7,
deallocate 2, and the exceeded test at the boundary. -/
theorem tracker_counters_witness :
    ((Tracker.mk 5 7).allocate 3).current = 8 ∧
    ((Tracker.mk 5 7).allocate 3).peak = 8 ∧
    ((Tracker.mk 5 7).deallocate 2).current + 2 = 5 ∧
    (Tracker.mk 5 7).peak ≤ (trackerStep (Tracker.mk 5 7) (.alloc 3)).peak ∧
    ((Tracker.mk 104857601 7).isExceeded = true ↔ 104857600 < 104857601) := by
  have h1 := tracker_counters (Tracker.mk 5 7) 3 2 (.alloc 3)
    (by decide) (by decide)
  have h2 := tracker_counters (Tracker.mk 104857601 7) 3 2 (.alloc 3)
    (by decide) (by decide)
  exact ⟨h1.1, h1.2.1, h1.2.2.1, h1.2.2.2.1, h2.2.2.2.2⟩

/-- C9. `splitAt p` returns null exactly when `p` is at or past the end of
the filled region (`p ≥ size`, the C++ past-the-end position); otherwise it
returns a fresh buffer of the same capacity holding exactly the tail
`[p, size)` with cursor 0, and truncates the original's size to `p` leaving
its capacity untouched. -/
theorem splitAt_spec (b : Buf) (p : Nat) (hinv : b.data.length ≤ b.capacity) :
    (b.splitAt p = none ↔ b.data.length ≤ p) ∧
    (p < b.data.length →
      b.splitAt p = some ({ b with data := b.data.take p },
        Buf.mk b.capacity (b.data.drop p) 0)) ∧
    (p < b.data.length → (b.data.take p).length = p) := by
  have hdl : (b.data.drop p).length = b.data.length - p := List.length_drop ..
  refine ⟨?_, ?_, ?_⟩
  · constructor
    · intro hn
      by_contra hlt
      have hpe : ¬ b.data.length ≤ p := hlt
      have hov : ¬ b.capacity < (b.data.drop p).length := by
        rw [hdl]; omega
      rw [Buf.splitAt, if_neg hpe, if_neg hov] at hn
      cases hn
    · intro hle
      rw [Buf.splitAt, if_pos hle]
  · intro hlt
    have hpe : ¬ b.data.length ≤ p := by omega
    have hov : ¬ b.capacity < (b.data.drop p).length := by
      rw [hdl]; omega
    rw [Buf.splitAt, if_neg hpe, if_neg hov]
  · intro hlt
    rw [List.length_take]
    omega

/-- Witness for C9: splitting a 3-byte buffer at 1 and at 3 (its
past-the-end position). -/
theorem splitAt_spec_witness :
    ((Buf.mk 4 [1, 2, 3] 1).splitAt 3 = none ↔ 3 ≤ 3) ∧
    (Buf.mk 4 [1, 2, 3] 1).splitAt 1 =
      some (Buf.mk 4 [1] 1, Buf.mk 4 [2, 3] 0) ∧
    ((Buf.mk 4 [1, 2, 3] 1).data.take 1).length = 1 := by
  have h := splitAt_spec (Buf.mk 4 [1, 2, 3] 1) 1 (by decide)
  have h3 := splitAt_spec (Buf.mk 4 [1, 2, 3] 1) 3 (by decide)
  exact ⟨h3.1, h.2.1 (by decide), h.2.2 (by decide)⟩

/-- C10. `sendPartial` with `startOffset ≥ size` returns 0 without calling
the socket and leaves the buffer untouched, and the write-flush loop treats
that 0 return as a stop condition: it breaks out with the connection and
queue exactly as they were, rather than treating it as an error. -/
theorem sendPartial_pastEnd_stops (b : Buf) (start : Nat) (sock : SendOutcome)
    (c : Conn) (buf : Buf) (rest : List Buf) (script : List SendOutcome)
    (hpast : b.data.length ≤ start)
    (hq : c.send_queue.messages = buf :: rest)
    (hdone : buf.data.length ≤ buf.offset) :
    b.sendPartial start sock = (0, b, none) ∧
    writeLoop c script = c ∧
    c.handleWrite script = c := by
  have hw : writeLoop c script = c := by
    rw [writeLoop, hq]
    simp [hdone]
  refine ⟨?_, hw, ?_⟩
  · rw [Buf.sendPartial, if_pos hpast]
  · rw [Conn.handleWrite]
    by_cases hg : (!c.connected || c.send_queue.messages.isEmpty) = true
    · rw [if_pos hg]
    · rw [if_neg hg]
      exact hw

/-- Witness for C10: a buffer whose cursor is at its size returns 0 and the
flush loop leaves a connection with such a head buffer untouched. -/
theorem sendPartial_pastEnd_stops_witness :
    (Buf.mk 4 [1, 2] 2).sendPartial 2 SendOutcome.eagain =
      (0, Buf.mk 4 [1, 2] 2, none) ∧
    writeLoop
      (Conn.mk true [] (Buf.make 4096)
        (MsgQueue.mk [Buf.mk 4 [1, 2] 2] (Pool.init 1024))) [SendOutcome.ok 1] =
      Conn.mk true [] (Buf.make 4096)
        (MsgQueue.mk [Buf.mk 4 [1, 2] 2] (Pool.init 1024)) ∧
    Conn.handleWrite
      (Conn.mk true [] (Buf.make 4096)
        (MsgQueue.mk [Buf.mk 4 [1, 2] 2] (Pool.init 1024))) [SendOutcome.ok 1] =
      Conn.mk true [] (Buf.make 4096)
        (MsgQueue.mk [Buf.mk 4 [1, 2] 2] (Pool.init 1024)) := by
  have h := sendPartial_pastEnd_stops (Buf.mk 4 [1, 2] 2) 2 SendOutcome.eagain
    (Conn.mk true [] (Buf.make 4096)
      (MsgQueue.mk [Buf.mk 4 [1, 2] 2] (Pool.init 1024)))
    (Buf.mk 4 [1, 2] 2) [] [SendOutcome.ok 1]
    (by decide) rfl (by decide)
  exact ⟨h.1, h.2.1, h.2.2⟩
